import Mathlib

/-!
Verification of the `baste64` base64 codec.

Bytes are modelled as `Nat` (with `< 256` hypotheses where byte range
matters).  The two stream drivers `encode_to` and `decode_to` are
translated from `src/lib.rs`; the raw output pointer writing into the
over-allocated `Vec` slack is modelled by an explicit write cursor into a
growable buffer list (`writeAt`), and the final `set_len` by `List.take`
of the cursor position.  The chunk kernels (`encode_chunk.rs`,
`decode_chunk.rs`) are not part of the sources and are modelled from the
specification, as marked on each definition.
-/

namespace Baste64

/-- Modelled from the spec (§4.2, §3 Alphabet): map a 6-bit index to its
base64 ASCII character via the five contiguous alphabet ranges
`A-Z a-z 0-9 + /` (no table lookup). -/
def b64Char (i : Nat) : Nat :=
  if i < 26 then 65 + i
  else if i < 52 then 97 + (i - 26)
  else if i < 62 then 48 + (i - 52)
  else if i = 62 then 43
  else 47

/-- Modelled from the spec (§4.3, §3 Alphabet): range-based classification
of an ASCII byte; `none` means the byte is outside the alphabet. -/
def b64Index (ch : Nat) : Option Nat :=
  if 65 ≤ ch ∧ ch ≤ 90 then some (ch - 65)
  else if 97 ≤ ch ∧ ch ≤ 122 then some (ch - 97 + 26)
  else if 48 ≤ ch ∧ ch ≤ 57 then some (ch - 48 + 52)
  else if ch = 43 then some 62
  else if ch = 47 then some 63
  else none

/-- Byte of a buffer at index `i`; out-of-range reads give 0 (the kernels
are only ever handed windows where all 16 positions are physically
present, see §3 Chunk). -/
def byteAt (c : List Nat) (i : Nat) : Nat := c.getD i 0

/-- Modelled from the spec (§4.2): one 3-byte group packed into 24 bits and
split into four 6-bit indices by shift and mask, each mapped to ASCII. -/
def encodeGroup (b0 b1 b2 : Nat) : List Nat :=
  let n := b0 * 65536 + b1 * 256 + b2
  [b64Char (n / 262144 % 64), b64Char (n / 4096 % 64),
   b64Char (n / 64 % 64), b64Char (n % 64)]

/-- Modelled from the spec (§4.2): `encode_chunk` reads the 12 meaningful
bytes of a 16-byte window as four 3-byte groups processed in parallel and
always produces 16 ASCII bytes. -/
def encode_chunk (c : List Nat) : List Nat :=
  encodeGroup (byteAt c 0) (byteAt c 1) (byteAt c 2) ++
  encodeGroup (byteAt c 3) (byteAt c 4) (byteAt c 5) ++
  encodeGroup (byteAt c 6) (byteAt c 7) (byteAt c 8) ++
  encodeGroup (byteAt c 9) (byteAt c 10) (byteAt c 11)

/-- Modelled from the spec (§4.1): `encoded_len` for `n` raw bytes, full
3-byte groups give 4 ASCII bytes each, a partial group of `r = n mod 3`
bytes gives `{0:0, 1:2, 2:3}[r]` more (padding not counted). -/
def encoded_len (n : Nat) : Nat :=
  4 * (n / 3) + (if n % 3 = 0 then 0 else if n % 3 = 1 then 2 else 3)

/-- Modelled from the spec (§4.1): `decoded_len` for `n` ASCII bytes after
stripping trailing padding; full 4-byte groups give 3 raw bytes each, a
partial group of `r = n mod 4` bytes gives `{0:0, 2:1, 3:2}[r]` more;
`r == 1` "is never valid base64 and signals failure if encountered",
modelled as `none`. -/
def decoded_len (n : Nat) : Option Nat :=
  if n % 4 = 0 then some (3 * (n / 4))
  else if n % 4 = 2 then some (3 * (n / 4) + 1)
  else if n % 4 = 3 then some (3 * (n / 4) + 2)
  else none

/-- Modelled from the spec (§4.3): pack four 6-bit values (computed
branchlessly, illegal lanes contributing a don't-care 0) into 3 raw
bytes by bit concatenation. -/
def decodeGroup (a b c d : Nat) : List Nat :=
  let m := (b64Index a).getD 0 * 262144 + (b64Index b).getD 0 * 4096 +
           (b64Index c).getD 0 * 64 + (b64Index d).getD 0
  [m / 65536, m / 256 % 256, m % 256]

/-- Modelled from the spec (§4.3): `decode_chunk` maps a 16-byte ASCII
window to its 12 meaningful raw bytes (four groups in parallel) together
with the chunk's illegal-byte flag (per-lane legality OR-reduced).  The
4 extra physical output bytes of the kernel are unspecified overwrite
material that is never visible, so they are not modelled. -/
def decode_chunk (c : List Nat) : List Nat × Bool :=
  (decodeGroup (byteAt c 0) (byteAt c 1) (byteAt c 2) (byteAt c 3) ++
   decodeGroup (byteAt c 4) (byteAt c 5) (byteAt c 6) (byteAt c 7) ++
   decodeGroup (byteAt c 8) (byteAt c 9) (byteAt c 10) (byteAt c 11) ++
   decodeGroup (byteAt c 12) (byteAt c 13) (byteAt c 14) (byteAt c 15),
   c.any fun ch => (b64Index ch).isNone)

/-- Raw-pointer write of `ws` into buffer `buf` at offset `p` (from
`lib.rs`, the `raw_out.write_unaligned` stores into the reserved slack
past the vector's logical length).  Positions past the current end model
uninitialized slack as 0. -/
def writeAt (buf : List Nat) (p : Nat) (ws : List Nat) : List Nat :=
  buf.take p ++ List.replicate (p - buf.length) 0 ++ ws ++ buf.drop (p + ws.length)

/-- The fast-region boundary of `encode_to` (`lib.rs` lines 61-69): the
byte offset `end - data.as_ptr()` up to which the 16-byte-window fast
path runs. -/
def encFastEnd (len : Nat) : Nat :=
  if len % 12 ≥ 4 then len - len % 12
  else if len < 16 then 0
  else len - len % 12 - 12

/-- The `while start != end` fast loop of `encode_to` (`lib.rs` lines
71-82).  The cursor starts at 0 and the boundary is a multiple of 12, so
the loop runs exactly `encFastEnd len / 12` times; it is modelled by that
iteration count `k`.  Each iteration reads a 16-byte window, writes the
16 encoded bytes at the write cursor, advances the read cursor by 12 and
the write cursor by 16. -/
def encodeFastLoop (data : List Nat) : Nat → Nat → List Nat → Nat → List Nat × Nat
  | 0, _, buf, rawOut => (buf, rawOut)
  | k + 1, start, buf, rawOut =>
      encodeFastLoop data k (start + 12)
        (writeAt buf rawOut (encode_chunk ((data.drop start).take 16))) (rawOut + 16)

/-- The `while start < end` slow-tail loop of `encode_to` (`lib.rs` lines
85-102): copy up to 12 remaining bytes into a zeroed 16-byte scratch
window, encode it, write all 16 output bytes, but advance the write
cursor only by `encoded_len` of the real chunk length.  `fuel` bounds the
iteration count (every iteration consumes at least one byte, so
`data.length` fuel always suffices). -/
def encodeSlowLoop (data : List Nat) : Nat → Nat → List Nat → Nat → List Nat × Nat
  | 0, _, buf, rawOut => (buf, rawOut)
  | fuel + 1, start, buf, rawOut =>
      if start < data.length then
        let chunkLen := min (data.length - start) 12
        let chunk := (data.drop start).take chunkLen
        let temp := chunk ++ List.replicate (16 - chunkLen) 0
        encodeSlowLoop data fuel (start + chunkLen)
          (writeAt buf rawOut (encode_chunk temp)) (rawOut + encoded_len chunkLen)
      else (buf, rawOut)

/-- `encode_to` from `lib.rs` lines 52-116: fail on empty input, run the
fast loop then the slow tail, set the logical length from the write
cursor, and append `=` padding by the logical length mod 4.  (The
`out.reserve` call only affects capacity and has no visible effect.) -/
def encode_to (data out : List Nat) : Except String (List Nat) :=
  if data.isEmpty then .error "empty data"
  else
    let fe := encFastEnd data.length
    let s1 := encodeFastLoop data (fe / 12) 0 out out.length
    let s2 := encodeSlowLoop data data.length fe s1.1 s1.2
    let v := s2.1.take s2.2
    if v.length % 4 = 2 then .ok (v ++ [61, 61])
    else if v.length % 4 = 3 then .ok (v ++ [61])
    else .ok v

/-- Public `encode` (`lib.rs` lines 33-37): encode into a fresh vector. -/
def encode (data : List Nat) : Except String (List Nat) :=
  encode_to data []

/-- The padding strip of `decode_to` (`lib.rs` lines 119-121): the Rust
slice match `[p @ .., b'=', b'='] | [p @ .., b'='] | p` removes two
trailing `=` if the last two bytes are both `=`, else one trailing `=`
if present, else nothing. -/
def stripPad (d : List Nat) : List Nat :=
  if d.getLast? = some 61 then
    let d1 := d.dropLast
    if d1.getLast? = some 61 then d1.dropLast else d1
  else d

/-- The `chunks_exact(16)` loop of `decode_to` (`lib.rs` lines 130-143),
modelled by its iteration count `k = p.length / 16`: decode each full
16-byte window, write the 12 meaningful bytes at the write cursor,
advance it by 12, and OR the chunk's illegal flag into `failed`. -/
def decodeFastLoop (p : List Nat) : Nat → Nat → List Nat → Nat → Bool → List Nat × Nat × Bool
  | 0, _, buf, rawOut, failed => (buf, rawOut, failed)
  | k + 1, start, buf, rawOut, failed =>
      let r := decode_chunk ((p.drop start).take 16)
      decodeFastLoop p k (start + 16) (writeAt buf rawOut r.1) (rawOut + 12) (failed || r.2)

/-- The full decoding pass of `decode_to` over the stripped payload `p`
(`lib.rs` lines 130-157): all full 16-byte chunks, then the remainder
padded to 16 bytes with `'A'` (which decodes to the 6-bit value 0), whose
write advances the cursor by `decoded_len` of the remainder length.
Returns the physical buffer, the final write cursor, and the accumulated
failure flag. -/
def decodeRaw (p out : List Nat) : List Nat × Nat × Bool :=
  let k := p.length / 16
  let s := decodeFastLoop p k 0 out out.length false
  let rest := p.drop (16 * k)
  if rest.isEmpty then s
  else
    let ascii := rest ++ List.replicate (16 - rest.length) 65
    let r := decode_chunk ascii
    (writeAt s.1 s.2.1 r.1, s.2.1 + (decoded_len rest.length).getD 0, s.2.2 || r.2)

/-- `decode_to` from `lib.rs` lines 118-169: strip trailing padding,
succeed immediately on an empty payload, evaluate `decoded_len` of the
payload length for the buffer reservation (spec §4.1/§7: a payload length
of 1 mod 4 signals failure there, reported as the decode error), run the
decoding pass, fail if any chunk saw an illegal byte — discarding
everything written — and otherwise set the logical length from the write
cursor. -/
def decode_to (data out : List Nat) : Except String (List Nat) :=
  let p := stripPad data
  if p.isEmpty then .ok out
  else
    match decoded_len p.length with
    | none => .error "the decoding process failed unexpectedly"
    | some _ =>
      let s := decodeRaw p out
      if s.2.2 then .error "the decoding process failed unexpectedly"
      else .ok (s.1.take s.2.1)

/-- Public `decode` (`lib.rs` lines 46-50): decode into a fresh vector. -/
def decode (ascii : List Nat) : Except String (List Nat) :=
  decode_to ascii []

/-- Reference form of the encoded stream (pre-padding), used to state and
chain the driver lemmas: the input processed in 3-byte groups, a final
partial group of `r` bytes contributing the first `{1:2, 2:3}[r]` ASCII
bytes of its zero-padded group. -/
def encodeTriples : List Nat → List Nat
  | b0 :: b1 :: b2 :: rest => encodeGroup b0 b1 b2 ++ encodeTriples rest
  | [b0, b1] => (encodeGroup b0 b1 0).take 3
  | [b0] => (encodeGroup b0 0 0).take 2
  | [] => []

/-- Reference form of the decoded stream, used to state and chain the
driver lemmas: the stripped payload processed in 4-byte groups, a final
partial group padded with `'A'` contributing its first `{2:1, 3:2}[r]`
raw bytes. -/
def decodeQuads : List Nat → List Nat
  | a :: b :: c :: d :: rest => decodeGroup a b c d ++ decodeQuads rest
  | [a, b, c] => (decodeGroup a b c 65).take 2
  | [a, b] => (decodeGroup a b 65 65).take 1
  | [_] => []
  | [] => []

/-- The padding suffix appended by `encode_to` for a pre-padding length
with the given remainder mod 4. -/
def padOf (r : Nat) : List Nat :=
  if r = 2 then [61, 61] else if r = 3 then [61] else []

/-! ### Basic lemmas about `byteAt` and `writeAt` -/

theorem byteAt_nil (i : Nat) : byteAt [] i = 0 := by
  cases i <;> rfl

theorem byteAt_replicate_zero (k i : Nat) : byteAt (List.replicate k 0) i = 0 := by
  induction k generalizing i with
  | zero => exact byteAt_nil i
  | succ k ih =>
    rw [List.replicate_succ]
    cases i with
    | zero => rfl
    | succ j => exact ih j

theorem byteAt_append_zeros (l : List Nat) (k i : Nat) :
    byteAt (l ++ List.replicate k 0) i = byteAt l i := by
  induction l generalizing i with
  | nil => simpa using byteAt_replicate_zero k i
  | cons a t ih =>
    cases i with
    | zero => rfl
    | succ j => exact ih j

theorem byteAt_take (l : List Nat) (n i : Nat) (h : i < n) :
    byteAt (l.take n) i = byteAt l i := by
  induction l generalizing i n with
  | nil => simp
  | cons a t ih =>
    cases n with
    | zero => omega
    | succ m =>
      cases i with
      | zero => rfl
      | succ j => exact ih m j (by omega)

theorem writeAt_eq_append (buf ws : List Nat) :
    writeAt buf buf.length ws = buf ++ ws := by
  unfold writeAt
  rw [List.take_length, Nat.sub_self, List.replicate_zero,
    List.drop_eq_nil_of_le (by omega)]
  simp

theorem writeAt_take_of_le (buf ws : List Nat) (p q : Nat)
    (hq : q ≤ p) (hb : q ≤ buf.length) :
    (writeAt buf p ws).take q = buf.take q := by
  unfold writeAt
  rw [List.take_append_of_le_length (by simp [List.length_take]; omega),
    List.take_append_of_le_length (by simp [List.length_take]; omega),
    List.take_append_of_le_length (by simp [List.length_take]; omega),
    List.take_take, Nat.min_eq_left hq]

/-! ### Alphabet lemmas -/

theorem b64Index_b64Char_isSome (i : Nat) : (b64Index (b64Char i)).isSome := by
  unfold b64Char b64Index
  split_ifs <;> simp_all <;> omega

theorem b64Char_ne_61 (i : Nat) : b64Char i ≠ 61 := by
  unfold b64Char
  split_ifs <;> omega

theorem b64Index_b64Char_eq (i : Nat) (h : i < 64) : b64Index (b64Char i) = some i := by
  have h64 : ∀ j : Fin 64, b64Index (b64Char j.val) = some j.val := by decide
  exact h64 ⟨i, h⟩

theorem b64Index_A : b64Index 65 = some 0 := rfl

/-! ### Length arithmetic -/

theorem encoded_len_eq (n : Nat) : encoded_len n = (4 * n + 2) / 3 := by
  unfold encoded_len; split_ifs <;> omega

theorem encoded_len_zero : encoded_len 0 = 0 := rfl

theorem encoded_len_add_three (n : Nat) : encoded_len (n + 3) = encoded_len n + 4 := by
  rw [encoded_len_eq, encoded_len_eq]; omega

theorem encoded_len_mod4 (n : Nat) : encoded_len n % 4 ≠ 1 := by
  unfold encoded_len; split_ifs <;> omega

theorem encoded_len_of_dvd (n : Nat) (h : n % 3 = 0) : encoded_len n = 4 * (n / 3) := by
  unfold encoded_len
  split_ifs
  all_goals omega

theorem encoded_len_add_of_dvd (a b : Nat) (h : a % 3 = 0) :
    encoded_len (a + b) = encoded_len a + encoded_len b := by
  rw [encoded_len_eq, encoded_len_eq, encoded_len_eq]; omega

theorem decoded_len_getD (n : Nat) (h : n % 4 ≠ 1) :
    (decoded_len n).getD 0 = 3 * n / 4 := by
  unfold decoded_len; split_ifs <;> simp <;> omega

theorem decoded_len_eq_none (n : Nat) : decoded_len n = none ↔ n % 4 = 1 := by
  unfold decoded_len
  split_ifs <;> (simp; omega)

theorem decoded_len_some (n : Nat) (h : n % 4 ≠ 1) :
    decoded_len n = some (3 * n / 4) := by
  unfold decoded_len
  split_ifs <;> first
    | omega
    | (congr 1; omega)

/-! ### List destructuring helpers -/

theorem exists_three (g : List Nat) (h : g.length = 3) :
    ∃ a b c, g = [a, b, c] :=
  match g, h with
  | [a, b, c], _ => ⟨a, b, c, rfl⟩
  | [], h => by simp only [List.length_nil] at h; omega
  | [_], h => by simp only [List.length_cons, List.length_nil] at h; omega
  | [_, _], h => by simp only [List.length_cons, List.length_nil] at h; omega
  | _ :: _ :: _ :: _ :: _, h => by
      simp only [List.length_cons] at h; omega

theorem exists_four (g : List Nat) (h : g.length = 4) :
    ∃ a b c d, g = [a, b, c, d] :=
  match g, h with
  | [a, b, c, d], _ => ⟨a, b, c, d, rfl⟩
  | [], h => by simp only [List.length_nil] at h; omega
  | [_], h => by simp only [List.length_cons, List.length_nil] at h; omega
  | [_, _], h => by simp only [List.length_cons, List.length_nil] at h; omega
  | [_, _, _], h => by simp only [List.length_cons, List.length_nil] at h; omega
  | _ :: _ :: _ :: _ :: _ :: _, h => by
      simp only [List.length_cons] at h; omega

/-! ### `encodeTriples` and `encode_chunk` lemmas -/

theorem encodeGroup_length (b0 b1 b2 : Nat) : (encodeGroup b0 b1 b2).length = 4 := by
  simp [encodeGroup]

theorem encode_chunk_length (c : List Nat) : (encode_chunk c).length = 16 := by
  simp [encode_chunk, encodeGroup]

theorem encode_chunk_append_zeros (l : List Nat) (k : Nat) :
    encode_chunk (l ++ List.replicate k 0) = encode_chunk l := by
  simp only [encode_chunk, byteAt_append_zeros]

theorem encode_chunk_take (l : List Nat) (n : Nat) (h : 12 ≤ n) :
    encode_chunk (l.take n) = encode_chunk l := by
  simp only [encode_chunk]
  rw [byteAt_take l n 0 (by omega), byteAt_take l n 1 (by omega),
    byteAt_take l n 2 (by omega), byteAt_take l n 3 (by omega),
    byteAt_take l n 4 (by omega), byteAt_take l n 5 (by omega),
    byteAt_take l n 6 (by omega), byteAt_take l n 7 (by omega),
    byteAt_take l n 8 (by omega), byteAt_take l n 9 (by omega),
    byteAt_take l n 10 (by omega), byteAt_take l n 11 (by omega)]

theorem encodeTriples_length : ∀ l : List Nat, (encodeTriples l).length = encoded_len l.length
  | [] => by simp [encodeTriples]; decide
  | [b0] => by simp [encodeTriples, encodeGroup]; decide
  | [b0, b1] => by simp [encodeTriples, encodeGroup]; decide
  | b0 :: b1 :: b2 :: rest => by
      have ih := encodeTriples_length rest
      simp only [encodeTriples, List.length_append, encodeGroup_length, List.length_cons, ih]
      rw [encoded_len_eq, encoded_len_eq]
      omega

theorem encodeTriples_append : ∀ a b : List Nat, a.length % 3 = 0 →
    encodeTriples (a ++ b) = encodeTriples a ++ encodeTriples b
  | [], b, _ => by simp [encodeTriples]
  | [_], _, h => by simp at h
  | [_, _], _, h => by simp at h
  | x :: y :: z :: rest, b, h => by
      have ih := encodeTriples_append rest b (by
        simp only [List.length_cons] at h; omega)
      simp only [List.cons_append, encodeTriples, List.append_eq, ih, List.append_assoc]

theorem encode_chunk_eq_of_twelve (l : List Nat) (h : 12 ≤ l.length) :
    encode_chunk l = encodeTriples (l.take 12) := by
  obtain ⟨a0, a1, a2, h0⟩ := exists_three (l.take 3) (by rw [List.length_take]; omega)
  obtain ⟨b0, b1, b2, h1⟩ := exists_three ((l.drop 3).take 3)
    (by rw [List.length_take, List.length_drop]; omega)
  obtain ⟨c0, c1, c2, h2⟩ := exists_three (((l.drop 3).drop 3).take 3)
    (by rw [List.length_take, List.length_drop, List.length_drop]; omega)
  obtain ⟨d0, d1, d2, h3⟩ := exists_three ((((l.drop 3).drop 3).drop 3).take 3)
    (by rw [List.length_take, List.length_drop, List.length_drop, List.length_drop]; omega)
  have hl : l = a0 :: a1 :: a2 :: b0 :: b1 :: b2 :: c0 :: c1 :: c2 :: d0 :: d1 :: d2 ::
      ((((l.drop 3).drop 3).drop 3).drop 3) := by
    conv_lhs => rw [← List.take_append_drop 3 l]
    rw [h0]
    conv_lhs => rw [← List.take_append_drop 3 (l.drop 3)]
    rw [h1]
    conv_lhs => rw [← List.take_append_drop 3 ((l.drop 3).drop 3)]
    rw [h2]
    conv_lhs => rw [← List.take_append_drop 3 (((l.drop 3).drop 3).drop 3)]
    rw [h3]
    simp
  rw [hl]
  rfl

theorem encode_chunk_take_encoded_len :
    ∀ chunk : List Nat, chunk.length ≤ 12 →
      (encode_chunk chunk).take (encoded_len chunk.length) = encodeTriples chunk
  | [], _ => by simp only [List.length_nil]; rfl
  | [x0], _ => by simp only [List.length_cons, List.length_nil]; rfl
  | [x0, x1], _ => by simp only [List.length_cons, List.length_nil]; rfl
  | [x0, x1, x2], _ => by simp only [List.length_cons, List.length_nil]; rfl
  | [x0, x1, x2, x3], _ => by simp only [List.length_cons, List.length_nil]; rfl
  | [x0, x1, x2, x3, x4], _ => by simp only [List.length_cons, List.length_nil]; rfl
  | [x0, x1, x2, x3, x4, x5], _ => by simp only [List.length_cons, List.length_nil]; rfl
  | [x0, x1, x2, x3, x4, x5, x6], _ => by simp only [List.length_cons, List.length_nil]; rfl
  | [x0, x1, x2, x3, x4, x5, x6, x7], _ => by simp only [List.length_cons, List.length_nil]; rfl
  | [x0, x1, x2, x3, x4, x5, x6, x7, x8], _ => by
      simp only [List.length_cons, List.length_nil]; rfl
  | [x0, x1, x2, x3, x4, x5, x6, x7, x8, x9], _ => by
      simp only [List.length_cons, List.length_nil]; rfl
  | [x0, x1, x2, x3, x4, x5, x6, x7, x8, x9, x10], _ => by
      simp only [List.length_cons, List.length_nil]; rfl
  | x0 :: x1 :: x2 :: x3 :: x4 :: x5 :: x6 :: x7 :: x8 :: x9 :: x10 :: x11 :: rest, h => by
      cases rest with
      | nil => simp only [List.length_cons, List.length_nil]; rfl
      | cons r t => simp only [List.length_cons] at h; omega

theorem encodeFastLoop_eq :
    ∀ (data : List Nat) (k start : Nat) (buf : List Nat),
      start + 12 * k ≤ data.length →
      encodeFastLoop data k start buf buf.length =
        (buf ++ encodeTriples ((data.drop start).take (12 * k)), buf.length + 16 * k)
  | data, 0, start, buf, _ => by simp [encodeFastLoop, encodeTriples]
  | data, k + 1, start, buf, h => by
      have hlen : 12 ≤ (data.drop start).length := by rw [List.length_drop]; omega
      have hchunk : encode_chunk ((data.drop start).take 16) =
          encodeTriples ((data.drop start).take 12) := by
        rw [encode_chunk_take _ 16 (by omega)]
        exact encode_chunk_eq_of_twelve _ hlen
      have hE : (encodeTriples ((data.drop start).take 12)).length = 16 := by
        rw [encodeTriples_length, List.length_take, List.length_drop,
          Nat.min_eq_left (by omega)]
        decide
      simp only [encodeFastLoop, hchunk, writeAt_eq_append]
      rw [show buf.length + 16 = (buf ++ encodeTriples ((data.drop start).take 12)).length by
        rw [List.length_append, hE]]
      rw [encodeFastLoop_eq data k (start + 12) _ (by omega)]
      have hsplit : (data.drop start).take (12 * (k + 1)) =
          (data.drop start).take 12 ++ ((data.drop (start + 12)).take (12 * k)) := by
        rw [show 12 * (k + 1) = 12 + 12 * k by ring, List.take_add, List.drop_drop]
      rw [hsplit, encodeTriples_append _ _ (by
        rw [List.length_take, List.length_drop, Nat.min_eq_left (by omega)])]
      simp only [Prod.mk.injEq, List.append_assoc, List.length_append, hE]
      exact ⟨trivial, by omega⟩

theorem encodeSlowLoop_at_end (data : List Nat) :
    ∀ (fuel : Nat) (buf : List Nat) (r : Nat),
      encodeSlowLoop data fuel data.length buf r = (buf, r)
  | 0, buf, r => rfl
  | fuel + 1, buf, r => by simp [encodeSlowLoop]

theorem encodeSlowLoop_eq :
    ∀ (data : List Nat) (fuel start : Nat) (buf : List Nat),
      start ≤ data.length → data.length - start ≤ fuel →
      ∃ junk, encodeSlowLoop data fuel start buf buf.length =
        (buf ++ encodeTriples (data.drop start) ++ junk,
         buf.length + encoded_len (data.length - start))
  | data, 0, start, buf, h1, h2 => by
      have hs : start = data.length := by omega
      refine ⟨[], ?_⟩
      rw [List.drop_eq_nil_of_le (by omega), show data.length - start = 0 by omega]
      simp [encodeSlowLoop, encodeTriples, encoded_len_zero]
  | data, fuel + 1, start, buf, h1, h2 => by
      by_cases hlt : start < data.length
      · by_cases h12 : 12 ≤ data.length - start
        · -- full 12-byte slow chunk, loop continues
          have hmin : min (data.length - start) 12 = 12 := Nat.min_eq_right h12
          have hclen : ((data.drop start).take 12).length = 12 := by
            rw [List.length_take, List.length_drop]; omega
          have hchunk : encode_chunk ((data.drop start).take 12 ++
              List.replicate (16 - 12) 0) = encodeTriples ((data.drop start).take 12) := by
            rw [encode_chunk_append_zeros]
            rw [encode_chunk_eq_of_twelve _ (by omega), List.take_take, Nat.min_self]
          have hE : (encodeTriples ((data.drop start).take 12)).length = 16 := by
            rw [encodeTriples_length, hclen]; decide
          obtain ⟨junk, hrec⟩ := encodeSlowLoop_eq data fuel (start + 12)
            (buf ++ encodeTriples ((data.drop start).take 12)) (by omega) (by omega)
          refine ⟨junk, ?_⟩
          simp only [encodeSlowLoop, if_pos hlt, hmin, hchunk, writeAt_eq_append]
          rw [show encoded_len 12 = 16 from rfl,
            show buf.length + 16 =
              (buf ++ encodeTriples ((data.drop start).take 12)).length by
                rw [List.length_append, hE]]
          have hsplit : data.drop start =
              (data.drop start).take 12 ++ (data.drop (start + 12)) := by
            conv_lhs => rw [← List.take_append_drop 12 (data.drop start)]
            rw [List.drop_drop]
          have hTT : encodeTriples (data.drop start) =
              encodeTriples ((data.drop start).take 12) ++
                encodeTriples (data.drop (start + 12)) := by
            conv_lhs => rw [hsplit]
            exact encodeTriples_append _ _ (by rw [hclen])
          rw [hrec, Prod.mk.injEq]
          refine ⟨?_, ?_⟩
          · rw [hTT]
            simp [List.append_assoc]
          · rw [List.length_append, hE, encoded_len_eq, encoded_len_eq]
            omega
        · -- final short slow chunk, loop terminates after it
          have hmin : min (data.length - start) 12 = data.length - start :=
            Nat.min_eq_left (by omega)
          have hdlen : (data.drop start).length = data.length - start := by
            rw [List.length_drop]
          have htake : (data.drop start).take (data.length - start) = data.drop start := by
            rw [← hdlen, List.take_length]
          refine ⟨(encode_chunk (data.drop start)).drop (encoded_len (data.length - start)), ?_⟩
          simp only [encodeSlowLoop, if_pos hlt, hmin, htake, encode_chunk_append_zeros,
            writeAt_eq_append]
          rw [show start + (data.length - start) = data.length by omega,
            encodeSlowLoop_at_end]
          have hsplit2 : encode_chunk (data.drop start) =
              encodeTriples (data.drop start) ++
                (encode_chunk (data.drop start)).drop (encoded_len (data.length - start)) := by
            conv_lhs => rw [← List.take_append_drop (encoded_len (data.length - start))
              (encode_chunk (data.drop start))]
            rw [show encoded_len (data.length - start) =
                encoded_len (data.drop start).length by rw [hdlen],
              encode_chunk_take_encoded_len _ (by omega)]
          conv_lhs => rw [hsplit2]
          simp [List.append_assoc]
      · have hs : start = data.length := by omega
        refine ⟨[], ?_⟩
        rw [List.drop_eq_nil_of_le (by omega), show data.length - start = 0 by omega]
        simp only [encodeSlowLoop, if_neg hlt, encodeTriples]
        simp [encoded_len_zero]

theorem encode_to_eq (data out : List Nat) (h : data ≠ []) :
    encode_to data out =
      .ok ((out ++ encodeTriples data) ++ padOf ((out ++ encodeTriples data).length % 4)) := by
  have hne : ¬(data.isEmpty = true) := by
    cases data with
    | nil => exact absurd rfl h
    | cons a t => simp
  have hfe0 : encFastEnd data.length % 12 = 0 := by
    unfold encFastEnd; split_ifs <;> omega
  have hfele : encFastEnd data.length ≤ data.length := by
    unfold encFastEnd; split_ifs <;> omega
  have hk : 12 * (encFastEnd data.length / 12) = encFastEnd data.length := by omega
  simp only [encode_to]
  rw [if_neg hne]
  rw [encodeFastLoop_eq data (encFastEnd data.length / 12) 0 out (by omega)]
  simp only [List.drop_zero, hk]
  have hT1 : (encodeTriples (data.take (encFastEnd data.length))).length =
      out.length + 16 * (encFastEnd data.length / 12) - out.length := by
    rw [encodeTriples_length, List.length_take, Nat.min_eq_left hfele, encoded_len_eq]
    omega
  have hlen1 : out.length + 16 * (encFastEnd data.length / 12) =
      (out ++ encodeTriples (data.take (encFastEnd data.length))).length := by
    rw [List.length_append, encodeTriples_length, List.length_take,
      Nat.min_eq_left hfele, encoded_len_eq]
    omega
  rw [hlen1]
  obtain ⟨junk, hrec⟩ := encodeSlowLoop_eq data data.length (encFastEnd data.length)
    (out ++ encodeTriples (data.take (encFastEnd data.length))) hfele (by omega)
  rw [hrec]
  have hXT : (out ++ encodeTriples (data.take (encFastEnd data.length))) ++
        encodeTriples (data.drop (encFastEnd data.length)) = out ++ encodeTriples data := by
    rw [List.append_assoc]
    congr 1
    rw [← encodeTriples_append _ _ (by
      rw [List.length_take, Nat.min_eq_left hfele]; omega), List.take_append_drop]
  have hv : (((out ++ encodeTriples (data.take (encFastEnd data.length))) ++
        encodeTriples (data.drop (encFastEnd data.length))) ++ junk).take
        ((out ++ encodeTriples (data.take (encFastEnd data.length))).length +
          encoded_len (data.length - encFastEnd data.length)) =
      out ++ encodeTriples data := by
    rw [List.take_left' (by
      simp only [List.length_append, encodeTriples_length, List.length_drop]), hXT]
  simp only [← List.append_assoc, hv]
  unfold padOf
  split_ifs <;> simp

/-! ### `decodeQuads` and `decode_chunk` lemmas -/

theorem decodeGroup_length (a b c d : Nat) : (decodeGroup a b c d).length = 3 := by
  simp [decodeGroup]

theorem decodeQuads_append : ∀ a b : List Nat, a.length % 4 = 0 →
    decodeQuads (a ++ b) = decodeQuads a ++ decodeQuads b
  | [], b, _ => by simp [decodeQuads]
  | [_], _, h => by simp at h
  | [_, _], _, h => by simp at h
  | [_, _, _], _, h => by simp at h
  | x :: y :: z :: w :: rest, b, h => by
      have ih := decodeQuads_append rest b (by simp only [List.length_cons] at h; omega)
      simp only [List.cons_append, decodeQuads, List.append_eq, ih, List.append_assoc]

theorem decodeQuads_length : ∀ l : List Nat, l.length % 4 ≠ 1 →
    (decodeQuads l).length = 3 * l.length / 4
  | [], _ => by simp [decodeQuads]
  | [_], h => by simp at h
  | [a, b], _ => by
      simp [decodeQuads, List.length_take, decodeGroup_length]
  | [a, b, c], _ => by
      simp [decodeQuads, List.length_take, decodeGroup_length]
  | a :: b :: c :: d :: rest, h => by
      have ih := decodeQuads_length rest (by simp only [List.length_cons] at h; omega)
      simp only [decodeQuads, List.length_append, decodeGroup_length, ih, List.length_cons]
      omega

theorem decode_chunk_eq (l : List Nat) (h : l.length = 16) :
    decode_chunk l = (decodeQuads l, l.any fun ch => (b64Index ch).isNone) := by
  obtain ⟨a0, a1, a2, a3, h0⟩ := exists_four (l.take 4) (by rw [List.length_take]; omega)
  obtain ⟨b0, b1, b2, b3, h1⟩ := exists_four ((l.drop 4).take 4)
    (by rw [List.length_take, List.length_drop]; omega)
  obtain ⟨c0, c1, c2, c3, h2⟩ := exists_four (((l.drop 4).drop 4).take 4)
    (by rw [List.length_take, List.length_drop, List.length_drop]; omega)
  obtain ⟨d0, d1, d2, d3, h3⟩ := exists_four ((((l.drop 4).drop 4).drop 4).take 4)
    (by rw [List.length_take, List.length_drop, List.length_drop, List.length_drop]; omega)
  have htail : (((l.drop 4).drop 4).drop 4).drop 4 = [] := by
    apply List.drop_eq_nil_of_le
    simp only [List.length_drop]
    omega
  have hl : l = a0 :: a1 :: a2 :: a3 :: b0 :: b1 :: b2 :: b3 ::
      c0 :: c1 :: c2 :: c3 :: d0 :: d1 :: d2 :: d3 :: [] := by
    conv_lhs => rw [← List.take_append_drop 4 l]
    rw [h0]
    conv_lhs => rw [← List.take_append_drop 4 (l.drop 4)]
    rw [h1]
    conv_lhs => rw [← List.take_append_drop 4 ((l.drop 4).drop 4)]
    rw [h2]
    conv_lhs => rw [← List.take_append_drop 4 (((l.drop 4).drop 4).drop 4)]
    rw [h3, htail]
    simp
  rw [hl]
  rfl

theorem any_bad_replicate_A (k : Nat) :
    (List.replicate k 65).any (fun ch => (b64Index ch).isNone) = false := by
  induction k with
  | zero => rfl
  | succ k ih => simp [List.replicate_succ, ih, b64Index_A]

theorem dlen_two : (decoded_len 2).getD 0 = 1 := rfl

theorem dlen_three : (decoded_len 3).getD 0 = 2 := rfl

theorem dlen_add_four (n : Nat) (h : n % 4 ≠ 1) :
    (decoded_len (n + 4)).getD 0 = (decoded_len n).getD 0 + 3 := by
  rw [decoded_len_getD _ (by omega), decoded_len_getD _ h]
  omega

theorem decodeQuads_padA :
    ∀ (rest : List Nat) (k : Nat), rest.length % 4 ≠ 1 →
      (decodeQuads (rest ++ List.replicate k 65)).take ((decoded_len rest.length).getD 0) =
        decodeQuads rest
  | [], k, _ => by
      show (decodeQuads ([] ++ List.replicate k 65)).take ((decoded_len 0).getD 0) = _
      rw [show (decoded_len 0).getD 0 = 0 from rfl]
      simp [decodeQuads]
  | [_], _, h => by simp at h
  | [a, b], k, _ => by
      show (decodeQuads ([a, b] ++ List.replicate k 65)).take ((decoded_len 2).getD 0) = _
      rw [dlen_two]
      rcases k with _ | _ | k
      · simp [decodeQuads, List.take_take]
      · simp [List.replicate, decodeQuads, List.take_take]
      · rw [List.replicate_succ, List.replicate_succ]
        show (decodeQuads (a :: b :: 65 :: 65 :: List.replicate k 65)).take 1 = _
        rw [show decodeQuads (a :: b :: 65 :: 65 :: List.replicate k 65) =
          decodeGroup a b 65 65 ++ decodeQuads (List.replicate k 65) from rfl]
        rw [List.take_append_of_le_length (by rw [decodeGroup_length]; omega)]
        rfl
  | [a, b, c], k, _ => by
      show (decodeQuads ([a, b, c] ++ List.replicate k 65)).take ((decoded_len 3).getD 0) = _
      rw [dlen_three]
      rcases k with _ | k
      · simp [decodeQuads, List.take_take]
      · rw [List.replicate_succ]
        show (decodeQuads (a :: b :: c :: 65 :: List.replicate k 65)).take 2 = _
        rw [show decodeQuads (a :: b :: c :: 65 :: List.replicate k 65) =
          decodeGroup a b c 65 ++ decodeQuads (List.replicate k 65) from rfl]
        rw [List.take_append_of_le_length (by rw [decodeGroup_length]; omega)]
        rfl
  | a :: b :: c :: d :: rest, k, h => by
      have hr : rest.length % 4 ≠ 1 := by simp only [List.length_cons] at h; omega
      have ih := decodeQuads_padA rest k hr
      show (decodeQuads ((a :: b :: c :: d :: rest) ++ List.replicate k 65)).take
        ((decoded_len (rest.length + 4)).getD 0) = _
      rw [dlen_add_four _ hr]
      rw [show decodeQuads ((a :: b :: c :: d :: rest) ++ List.replicate k 65) =
        decodeGroup a b c d ++ decodeQuads (rest ++ List.replicate k 65) from rfl]
      rw [show (decoded_len rest.length).getD 0 + 3 =
        (decodeGroup a b c d).length + (decoded_len rest.length).getD 0 by
          rw [decodeGroup_length]; omega]
      rw [List.take_append, ih]
      rfl

theorem decodeFastLoop_eq :
    ∀ (p : List Nat) (k start : Nat) (buf : List Nat) (failed : Bool),
      start + 16 * k ≤ p.length →
      decodeFastLoop p k start buf buf.length failed =
        (buf ++ decodeQuads ((p.drop start).take (16 * k)),
         buf.length + 12 * k,
         failed || ((p.drop start).take (16 * k)).any fun ch => (b64Index ch).isNone)
  | p, 0, start, buf, failed, _ => by
      simp [decodeFastLoop, decodeQuads]
  | p, k + 1, start, buf, failed, h => by
      have hlen : ((p.drop start).take 16).length = 16 := by
        rw [List.length_take, List.length_drop]; omega
      have hchunk := decode_chunk_eq _ hlen
      have hql : (decodeQuads ((p.drop start).take 16)).length = 12 := by
        rw [decodeQuads_length _ (by rw [hlen]; omega), hlen]
      simp only [decodeFastLoop, hchunk, writeAt_eq_append]
      rw [show buf.length + 12 = (buf ++ decodeQuads ((p.drop start).take 16)).length by
        rw [List.length_append, hql]]
      rw [decodeFastLoop_eq p k (start + 16) _ _ (by omega)]
      have hsplit : (p.drop start).take (16 * (k + 1)) =
          (p.drop start).take 16 ++ (p.drop (start + 16)).take (16 * k) := by
        rw [show 16 * (k + 1) = 16 + 16 * k by ring, List.take_add, List.drop_drop]
      rw [hsplit, decodeQuads_append _ _ (by rw [hlen]), Prod.mk.injEq, Prod.mk.injEq]
      refine ⟨?_, ?_, ?_⟩
      · simp [List.append_assoc]
      · rw [List.length_append, hql]; omega
      · rw [List.any_append, Bool.or_assoc]

theorem decodeRaw_eq (p out : List Nat) (h4 : p.length % 4 ≠ 1) :
    (decodeRaw p out).1.take (decodeRaw p out).2.1 = out ++ decodeQuads p ∧
    (decodeRaw p out).2.1 = out.length + (decoded_len p.length).getD 0 ∧
    (decodeRaw p out).2.2 = p.any fun ch => (b64Index ch).isNone := by
  have hk16 : 16 * (p.length / 16) ≤ p.length := by omega
  have hfc : ((p.drop 0).take (16 * (p.length / 16))).length = 16 * (p.length / 16) := by
    rw [List.drop_zero, List.length_take]; omega
  have hfc4 : ((p.drop 0).take (16 * (p.length / 16))).length % 4 = 0 := by
    rw [hfc]; omega
  have hdq : (decodeQuads ((p.drop 0).take (16 * (p.length / 16)))).length =
      12 * (p.length / 16) := by
    rw [decodeQuads_length _ (by rw [hfc]; omega), hfc]; omega
  simp only [decodeRaw]
  rw [decodeFastLoop_eq p (p.length / 16) 0 out false (by omega)]
  by_cases hres : (p.drop (16 * (p.length / 16))).isEmpty
  · have h0 : p.length - 16 * (p.length / 16) = 0 := by
      have := congrArg List.length (List.isEmpty_iff.mp hres)
      simp only [List.length_drop, List.length_nil] at this
      omega
    have hfull : (p.drop 0).take (16 * (p.length / 16)) = p := by
      rw [List.drop_zero]
      exact List.take_of_length_le (by omega)
    rw [if_pos hres]
    dsimp only
    rw [hfull]
    refine ⟨?_, ?_, ?_⟩
    · apply List.take_of_length_le
      rw [List.length_append, decodeQuads_length _ h4]
      omega
    · rw [decoded_len_getD _ h4]; omega
    · rw [Bool.false_or]
  · have h0 : 0 < p.length - 16 * (p.length / 16) := by
      rcases Nat.eq_zero_or_pos (p.length - 16 * (p.length / 16)) with h | h
      · exfalso
        apply hres
        rw [List.isEmpty_iff, ← List.length_eq_zero, List.length_drop]
        omega
      · exact h
    have hrl : (p.drop (16 * (p.length / 16))).length = p.length % 16 := by
      rw [List.length_drop]; omega
    have hascii : ((p.drop (16 * (p.length / 16))) ++
        List.replicate (16 - (p.drop (16 * (p.length / 16))).length) 65).length = 16 := by
      rw [List.length_append, List.length_replicate, hrl]; omega
    have hchunk := decode_chunk_eq _ hascii
    have hr4 : (p.drop (16 * (p.length / 16))).length % 4 ≠ 1 := by
      rw [hrl]; omega
    rw [if_neg hres]
    dsimp only
    rw [hchunk]
    dsimp only
    have hbuflen : out.length + 12 * (p.length / 16) =
        (out ++ decodeQuads ((p.drop 0).take (16 * (p.length / 16)))).length := by
      rw [List.length_append, hdq]
    rw [hbuflen, writeAt_eq_append]
    have hsplitp : (p.drop 0).take (16 * (p.length / 16)) ++ p.drop (16 * (p.length / 16)) = p := by
      rw [List.drop_zero, List.take_append_drop]
    refine ⟨?_, ?_, ?_⟩
    · rw [List.take_append, decodeQuads_padA _ _ hr4, List.append_assoc,
        ← decodeQuads_append _ _ hfc4, hsplitp]
    · rw [← hbuflen, hrl, decoded_len_getD _ h4, decoded_len_getD _ (by omega)]
      omega
    · rw [Bool.false_or, List.any_append, any_bad_replicate_A, Bool.or_false,
        ← List.any_append, hsplitp]

/-- Whatever `decodeRaw` does, it never writes below the caller's original
logical length: the first `out.length` buffer bytes stay `out`. -/
theorem decodeRaw_frame (p out : List Nat) :
    (decodeRaw p out).1.take out.length = out := by
  simp only [decodeRaw]
  rw [decodeFastLoop_eq p (p.length / 16) 0 out false (by omega)]
  by_cases hres : (p.drop (16 * (p.length / 16))).isEmpty
  · rw [if_pos hres]
    dsimp only
    rw [List.take_append_of_le_length (by omega), List.take_length]
  · rw [if_neg hres]
    dsimp only
    rw [writeAt_take_of_le _ _ _ _ (by omega) (by rw [List.length_append]; omega),
      List.take_append_of_le_length (by omega), List.take_length]

theorem decode_to_eq (data out : List Nat) :
    decode_to data out =
      if stripPad data = [] then .ok out
      else if (stripPad data).length % 4 = 1 then
        .error "the decoding process failed unexpectedly"
      else if (stripPad data).any (fun ch => (b64Index ch).isNone) then
        .error "the decoding process failed unexpectedly"
      else .ok (out ++ decodeQuads (stripPad data)) := by
  simp only [decode_to]
  by_cases hp : (stripPad data).isEmpty
  · rw [if_pos hp, if_pos (List.isEmpty_iff.mp hp)]
  · have hne : ¬(stripPad data = []) := by
      intro hx
      exact hp (List.isEmpty_iff.mpr hx)
    rw [if_neg hp, if_neg hne]
    by_cases h4 : (stripPad data).length % 4 = 1
    · rw [(decoded_len_eq_none _).mpr h4, if_pos h4]
    · obtain ⟨hv, hlen, hflag⟩ := decodeRaw_eq (stripPad data) out h4
      rw [decoded_len_some _ h4, if_neg h4]
      dsimp only
      by_cases hbad : (stripPad data).any (fun ch => (b64Index ch).isNone) = true
      · rw [if_pos (by rw [hflag]; exact hbad), if_pos hbad]
      · rw [if_neg (by rw [hflag]; exact hbad), if_neg hbad, hv]

/-! ### Group-level and stream-level round-trip -/

theorem round_group (b0 b1 b2 : Nat) (h0 : b0 < 256) (h1 : b1 < 256) (h2 : b2 < 256) :
    decodeGroup (b64Char ((b0 * 65536 + b1 * 256 + b2) / 262144 % 64))
      (b64Char ((b0 * 65536 + b1 * 256 + b2) / 4096 % 64))
      (b64Char ((b0 * 65536 + b1 * 256 + b2) / 64 % 64))
      (b64Char ((b0 * 65536 + b1 * 256 + b2) % 64)) = [b0, b1, b2] := by
  have k : ∀ x : Nat, b64Index (b64Char (x % 64)) = some (x % 64) := fun x =>
    b64Index_b64Char_eq _ (Nat.mod_lt _ (by omega))
  simp only [decodeGroup, k, Option.getD_some]
  simp only [List.cons.injEq, and_true]
  refine ⟨?_, ?_, ?_⟩ <;> omega

theorem decodeQuads_encodeTriples : ∀ b : List Nat, (∀ x ∈ b, x < 256) →
    decodeQuads (encodeTriples b) = b
  | [], _ => rfl
  | [b0], h => by
      have hb0 : b0 < 256 := h b0 (by simp)
      have k : ∀ x : Nat, b64Index (b64Char (x % 64)) = some (x % 64) := fun x =>
        b64Index_b64Char_eq _ (Nat.mod_lt _ (by omega))
      have t1 : ∀ x y z : Nat, List.take 1 [x, y, z] = [x] := fun _ _ _ => rfl
      show (decodeGroup (b64Char ((b0 * 65536 + 0 * 256 + 0) / 262144 % 64))
        (b64Char ((b0 * 65536 + 0 * 256 + 0) / 4096 % 64)) 65 65).take 1 = [b0]
      simp only [decodeGroup, k, b64Index_A, Option.getD_some]
      rw [t1]
      simp only [List.cons.injEq, and_true]
      omega
  | [b0, b1], h => by
      have hb0 : b0 < 256 := h b0 (by simp)
      have hb1 : b1 < 256 := h b1 (by simp)
      have k : ∀ x : Nat, b64Index (b64Char (x % 64)) = some (x % 64) := fun x =>
        b64Index_b64Char_eq _ (Nat.mod_lt _ (by omega))
      have t2 : ∀ x y z : Nat, List.take 2 [x, y, z] = [x, y] := fun _ _ _ => rfl
      show (decodeGroup (b64Char ((b0 * 65536 + b1 * 256 + 0) / 262144 % 64))
        (b64Char ((b0 * 65536 + b1 * 256 + 0) / 4096 % 64))
        (b64Char ((b0 * 65536 + b1 * 256 + 0) / 64 % 64)) 65).take 2 = [b0, b1]
      simp only [decodeGroup, k, b64Index_A, Option.getD_some]
      rw [t2]
      simp only [List.cons.injEq, and_true]
      refine ⟨?_, ?_⟩ <;> omega
  | b0 :: b1 :: b2 :: rest, h => by
      have hb0 : b0 < 256 := h b0 (by simp)
      have hb1 : b1 < 256 := h b1 (by simp)
      have hb2 : b2 < 256 := h b2 (by simp)
      have ih := decodeQuads_encodeTriples rest (fun x hx => h x (by simp [hx]))
      show decodeGroup (b64Char ((b0 * 65536 + b1 * 256 + b2) / 262144 % 64))
        (b64Char ((b0 * 65536 + b1 * 256 + b2) / 4096 % 64))
        (b64Char ((b0 * 65536 + b1 * 256 + b2) / 64 % 64))
        (b64Char ((b0 * 65536 + b1 * 256 + b2) % 64)) ++
          decodeQuads (encodeTriples rest) = b0 :: b1 :: b2 :: rest
      rw [ih, round_group b0 b1 b2 hb0 hb1 hb2]
      rfl

theorem mem_encodeGroup_isSome (b0 b1 b2 ch : Nat) (h : ch ∈ encodeGroup b0 b1 b2) :
    (b64Index ch).isSome := by
  simp only [encodeGroup, List.mem_cons, List.not_mem_nil, or_false] at h
  rcases h with h | h | h | h <;> (rw [h]; exact b64Index_b64Char_isSome _)

theorem encodeTriples_legal : ∀ (b : List Nat) (ch : Nat), ch ∈ encodeTriples b →
    (b64Index ch).isSome
  | [], ch, h => by simp [encodeTriples] at h
  | [b0], ch, h => mem_encodeGroup_isSome b0 0 0 ch (List.take_subset 2 _ h)
  | [b0, b1], ch, h => mem_encodeGroup_isSome b0 b1 0 ch (List.take_subset 3 _ h)
  | [b0, b1, b2], ch, h => by
      rcases List.mem_append.mp h with h | h
      · exact mem_encodeGroup_isSome b0 b1 b2 ch h
      · simp [encodeTriples] at h
  | b0 :: b1 :: b2 :: r0 :: rest, ch, h => by
      rcases List.mem_append.mp h with h | h
      · exact mem_encodeGroup_isSome b0 b1 b2 ch h
      · exact encodeTriples_legal (r0 :: rest) ch h

theorem encodeTriples_ne_61 (b : List Nat) (ch : Nat) (h : ch ∈ encodeTriples b) :
    ch ≠ 61 := by
  intro he
  have hs := encodeTriples_legal b ch h
  rw [he] at hs
  exact absurd hs (by decide)

/-! ### `stripPad` lemmas -/

theorem stripPad_no_pad (t : List Nat) (h : ∀ ch ∈ t, ch ≠ 61) : stripPad t = t := by
  simp only [stripPad]
  cases ht : t.getLast? with
  | none => simp
  | some a =>
      have ha : a ≠ 61 := h a (List.mem_of_getLast?_eq_some ht)
      rw [if_neg (by simp [ha])]

theorem stripPad_two (t : List Nat) : stripPad (t ++ [61, 61]) = t := by
  simp only [stripPad]
  rw [show t ++ [61, 61] = (t ++ [61]) ++ [61] by simp]
  rw [List.getLast?_concat, if_pos rfl, List.dropLast_concat, List.getLast?_concat,
    if_pos rfl, List.dropLast_concat]

theorem stripPad_one (t : List Nat) (h : t.getLast? ≠ some 61) :
    stripPad (t ++ [61]) = t := by
  simp only [stripPad]
  rw [List.getLast?_concat, if_pos rfl, List.dropLast_concat, if_neg h]

/-! ### Claim theorems -/

/-- Claim C1: for every non-empty byte sequence `b`, `encode b` succeeds and
`decode` of the encoding succeeds and returns exactly `b`. -/
theorem c1_encode_decode_roundtrip (b : List Nat) (hne : b ≠ [])
    (hb : ∀ x ∈ b, x < 256) :
    ∃ e, encode b = .ok e ∧ decode e = .ok b := by
  have henc := encode_to_eq b [] hne
  simp only [List.nil_append] at henc
  refine ⟨encodeTriples b ++ padOf ((encodeTriples b).length % 4), henc, ?_⟩
  have hne61 : ∀ ch ∈ encodeTriples b, ch ≠ 61 := fun ch hch =>
    encodeTriples_ne_61 b ch hch
  have hlast : (encodeTriples b).getLast? ≠ some 61 := by
    intro hx
    exact hne61 _ (List.mem_of_getLast?_eq_some hx) rfl
  have hmod : (encodeTriples b).length % 4 ≠ 1 := by
    rw [encodeTriples_length]; exact encoded_len_mod4 _
  have hstrip : stripPad (encodeTriples b ++ padOf ((encodeTriples b).length % 4)) =
      encodeTriples b := by
    unfold padOf
    split_ifs
    · exact stripPad_two _
    · exact stripPad_one _ hlast
    · rw [List.append_nil]
      exact stripPad_no_pad _ hne61
  have htne : encodeTriples b ≠ [] := by
    intro hx
    have hz : (encodeTriples b).length = 0 := by rw [hx]; rfl
    rw [encodeTriples_length, encoded_len_eq] at hz
    have hbl : 0 < b.length := List.length_pos.mpr hne
    omega
  have hnobad : (encodeTriples b).any (fun ch => (b64Index ch).isNone) = false := by
    rw [List.any_eq_false]
    intro ch hch
    have hs := encodeTriples_legal b ch hch
    cases hzz : b64Index ch with
    | none => rw [hzz] at hs; exact absurd hs (by decide)
    | some v => simp [hzz]
  unfold decode
  rw [decode_to_eq, hstrip, if_neg htne, if_neg hmod, if_neg (by rw [hnobad]; simp),
    List.nil_append, decodeQuads_encodeTriples b hb]

theorem c1_witness :
    ∃ e, encode [72, 105] = .ok e ∧ decode e = .ok [72, 105] :=
  c1_encode_decode_roundtrip [72, 105] (by decide) (by decide)

/-- Claim C2: `decode_to` fails with the invalid-character error exactly when
the stripped payload contains a byte outside the base64 alphabet (including a
misplaced `=`, which is not an alphabet byte) or the stripped length is
1 mod 4. -/
theorem c2_decode_rejects_iff (data out : List Nat) :
    decode_to data out = .error "the decoding process failed unexpectedly" ↔
      ((stripPad data).any (fun ch => (b64Index ch).isNone) = true ∨
        (stripPad data).length % 4 = 1) := by
  rw [decode_to_eq]
  by_cases h0 : stripPad data = []
  · rw [if_pos h0, h0]
    simp
  · rw [if_neg h0]
    by_cases h4 : (stripPad data).length % 4 = 1
    · rw [if_pos h4]
      simp [h4]
    · rw [if_neg h4]
      by_cases hbad : (stripPad data).any (fun ch => (b64Index ch).isNone) = true
      · rw [if_pos hbad]
        simp [hbad]
      · rw [if_neg hbad]
        simp [hbad, h4]

/-- Claim C3: for every non-empty input the pre-padding encoded stream length
is never 1 mod 4; `encode` appends `"=="` when it is 2 mod 4, `"="` when 3,
nothing when 0, and the final encoded length is a multiple of 4. -/
theorem c3_padding_finalization (b : List Nat) (hne : b ≠ []) :
    ∃ e, encode b = .ok e ∧
      (encodeTriples b).length % 4 ≠ 1 ∧
      e.length % 4 = 0 ∧
      ((encodeTriples b).length % 4 = 2 → e = encodeTriples b ++ [61, 61]) ∧
      ((encodeTriples b).length % 4 = 3 → e = encodeTriples b ++ [61]) ∧
      ((encodeTriples b).length % 4 = 0 → e = encodeTriples b) := by
  have henc := encode_to_eq b [] hne
  simp only [List.nil_append] at henc
  have hmod : (encodeTriples b).length % 4 ≠ 1 := by
    rw [encodeTriples_length]; exact encoded_len_mod4 _
  refine ⟨encodeTriples b ++ padOf ((encodeTriples b).length % 4), henc, hmod,
    ?_, ?_, ?_, ?_⟩
  · rw [List.length_append]
    unfold padOf
    split_ifs
    · simp only [List.length_cons, List.length_nil]; omega
    · simp only [List.length_cons, List.length_nil]; omega
    · simp only [List.length_nil]; omega
  · intro h2; rw [h2]; rfl
  · intro h3; rw [h3]; rfl
  · intro h0; rw [h0]; simp [padOf]

theorem c3_witness :
    ∃ e, encode [1, 2] = .ok e ∧
      (encodeTriples [1, 2]).length % 4 ≠ 1 ∧
      e.length % 4 = 0 ∧
      ((encodeTriples [1, 2]).length % 4 = 2 → e = encodeTriples [1, 2] ++ [61, 61]) ∧
      ((encodeTriples [1, 2]).length % 4 = 3 → e = encodeTriples [1, 2] ++ [61]) ∧
      ((encodeTriples [1, 2]).length % 4 = 0 → e = encodeTriples [1, 2]) :=
  c3_padding_finalization [1, 2] (by decide)

/-- Claim C4: `encoded_len` matches the `{0:0, 1:2, 2:3}` remainder table over
full 3-byte groups, `decoded_len` matches the `{0:0, 2:1, 3:2}` table over
full 4-byte groups (remainder 1 signalling failure), and both are monotonic. -/
theorem c4_size_formulas :
    (∀ n : Nat, encoded_len n =
      4 * (n / 3) + (if n % 3 = 0 then 0 else if n % 3 = 1 then 2 else 3)) ∧
    (∀ n : Nat, n % 4 ≠ 1 → decoded_len n =
      some (3 * (n / 4) + (if n % 4 = 0 then 0 else if n % 4 = 2 then 1 else 2))) ∧
    (∀ n m : Nat, n ≤ m → encoded_len n ≤ encoded_len m) ∧
    (∀ n m a b : Nat, n ≤ m → decoded_len n = some a → decoded_len m = some b →
      a ≤ b) := by
  refine ⟨fun n => rfl, ?_, ?_, ?_⟩
  · intro n h
    unfold decoded_len
    split_ifs <;> first
      | rfl
      | omega
  · intro n m h
    rw [encoded_len_eq, encoded_len_eq]
    omega
  · intro n m a b hnm ha hb
    have h4n : n % 4 ≠ 1 := by
      intro hx
      rw [(decoded_len_eq_none n).mpr hx] at ha
      exact Option.noConfusion ha
    have h4m : m % 4 ≠ 1 := by
      intro hx
      rw [(decoded_len_eq_none m).mpr hx] at hb
      exact Option.noConfusion hb
    rw [decoded_len_some _ h4n] at ha
    rw [decoded_len_some _ h4m] at hb
    have ha' := Option.some.inj ha
    have hb' := Option.some.inj hb
    omega

theorem c4_witness :
    (decoded_len 6 =
      some (3 * (6 / 4) + (if 6 % 4 = 0 then 0 else if 6 % 4 = 2 then 1 else 2))) ∧
    encoded_len 5 ≤ encoded_len 9 ∧ (3 : Nat) ≤ 6 :=
  ⟨c4_size_formulas.2.1 6 (by decide), c4_size_formulas.2.2.1 5 9 (by decide),
    c4_size_formulas.2.2.2 4 8 3 6 (by decide) (by rfl) (by rfl)⟩

/-- Claim C5: `encode_to` fails with the empty-input error exactly when the
input is empty, while `decode_to` succeeds with the output unchanged whenever
the stripped payload is empty, in particular returning empty output on `""`,
`"="` and `"=="`. -/
theorem c5_empty_input_asymmetry :
    (∀ data out : List Nat, encode_to data out = .error "empty data" ↔ data = []) ∧
    (∀ data out : List Nat, stripPad data = [] → decode_to data out = .ok out) ∧
    decode [] = .ok [] ∧ decode [61] = .ok [] ∧ decode [61, 61] = .ok [] := by
  refine ⟨?_, ?_, rfl, rfl, rfl⟩
  · intro data out
    constructor
    · intro he
      by_contra hne
      rw [encode_to_eq data out hne] at he
      exact Except.noConfusion he
    · intro h
      subst h
      rfl
  · intro data out h
    rw [decode_to_eq, if_pos h]

theorem c5_witness : stripPad [61, 61] = [] ∧ decode_to [61, 61] [7] = .ok [7] :=
  ⟨by rfl, c5_empty_input_asymmetry.2.1 [61, 61] [7] (by rfl)⟩

/-- Claim C6: any input whose stripped payload length is 1 mod 4 is rejected
by `decode_to` with the invalid-character error, even when every payload byte
is an alphabet byte. -/
theorem c6_length_rem1_rejected (data out : List Nat)
    (h : (stripPad data).length % 4 = 1) :
    decode_to data out = .error "the decoding process failed unexpectedly" := by
  rw [decode_to_eq]
  rw [if_neg (by intro hx; rw [hx] at h; simp at h), if_pos h]

theorem c6_witness :
    (stripPad [65, 65, 65, 65, 65]).length % 4 = 1 ∧
    (∀ ch ∈ [65, 65, 65, 65, 65], (b64Index ch).isSome) ∧
    decode_to [65, 65, 65, 65, 65] [] =
      .error "the decoding process failed unexpectedly" :=
  ⟨by decide, by decide, c6_length_rem1_rejected [65, 65, 65, 65, 65] [] (by decide)⟩

/-- Claim C7: whenever `decode_to` fails, nothing of the failed pass is
exposed: the physical buffer still begins with the caller's bytes (all writes
of the pass landed at or after the original logical length, which `decode_to`
leaves untouched by not calling `set_len`), and no output vector is
returned. -/
theorem c7_failure_atomicity (data out : List Nat) (e : String)
    (h : decode_to data out = .error e) :
    (decodeRaw (stripPad data) out).1.take out.length = out ∧
    ∀ r : List Nat, decode_to data out ≠ .ok r := by
  refine ⟨decodeRaw_frame _ _, ?_⟩
  intro r hr
  rw [h] at hr
  exact Except.noConfusion hr

theorem c7_witness :
    decode_to [33, 65, 65, 65] [7] =
      .error "the decoding process failed unexpectedly" ∧
    ((decodeRaw (stripPad [33, 65, 65, 65]) [7]).1.take ([7] : List Nat).length = [7] ∧
      ∀ r : List Nat, decode_to [33, 65, 65, 65] [7] ≠ .ok r) :=
  ⟨by rfl, c7_failure_atomicity [33, 65, 65, 65] [7]
    "the decoding process failed unexpectedly" (by rfl)⟩

/-- Claim C8: every fast-path cursor position of `encode_to` (the multiples of
12 strictly below the precomputed boundary `encFastEnd`) has at least 16
physically readable input bytes ahead of it, so every fixed 16-byte window
read lies inside the input buffer. -/
theorem c8_fast_path_read_safe (data : List Nat) (s : Nat)
    (h12 : 12 ∣ s) (hlt : s < encFastEnd data.length) :
    s + 16 ≤ data.length := by
  unfold encFastEnd at hlt
  rcases h12 with ⟨c, rfl⟩
  split_ifs at hlt <;> omega

theorem c8_witness :
    12 ∣ 0 ∧ 0 < encFastEnd (List.replicate 16 (0 : Nat)).length ∧
    0 + 16 ≤ (List.replicate 16 (0 : Nat)).length :=
  ⟨⟨0, rfl⟩, by decide,
    c8_fast_path_read_safe (List.replicate 16 0) 0 ⟨0, rfl⟩ (by decide)⟩

/-- Claim C9 as stated is false: at input length 25 (which satisfies
`16 ≤ len` and `len mod 12 = 1 < 4`) the fast region is cut back to
`25 - 1 - 12 = 12` and the slow tail is left with `13` bytes, more than the
claimed maximum of 12. -/
theorem c9_counterexample :
    16 ≤ 25 ∧ 25 % 12 < 4 ∧ encFastEnd 25 = 25 - 25 % 12 - 12 ∧
      ¬(4 ≤ 25 - encFastEnd 25 ∧ 25 - encFastEnd 25 ≤ 12) := by
  decide

/-- Claim C9 (amended): for every input length `len ≥ 16` with
`len mod 12 < 4`, the fast region is cut back to `len - len mod 12 - 12` and
the slow-tail path has at least 4 and at most 15 bytes left to process. -/
theorem c9_slow_tail_bound (len : Nat) (h16 : 16 ≤ len) (h4 : len % 12 < 4) :
    encFastEnd len = len - len % 12 - 12 ∧
    4 ≤ len - encFastEnd len ∧ len - encFastEnd len ≤ 15 := by
  unfold encFastEnd
  split_ifs <;> omega

theorem c9_witness :
    encFastEnd 25 = 25 - 25 % 12 - 12 ∧ 4 ≤ 25 - encFastEnd 25 ∧
      25 - encFastEnd 25 ≤ 15 :=
  c9_slow_tail_bound 25 (by decide) (by decide)

/-- Claim C10: whenever `decode_to` succeeds, the bytes already in the output
vector are unchanged, the decoded bytes (exactly what the pure `decode`
returns) sit immediately after them, and the logical length grows by exactly
the decoded length of the stripped payload. -/
theorem c10_decode_to_appends (data out r : List Nat)
    (h : decode_to data out = .ok r) :
    r.take out.length = out ∧
    decode data = .ok (r.drop out.length) ∧
    ∃ d, decoded_len (stripPad data).length = some d ∧
      r.length = out.length + d := by
  rw [decode_to_eq] at h
  unfold decode
  rw [decode_to_eq]
  by_cases h0 : stripPad data = []
  · rw [if_pos h0] at h ⊢
    obtain rfl : out = r := Except.ok.inj h
    refine ⟨List.take_length out, ?_, 0, ?_, ?_⟩
    · rw [List.drop_length]
    · rw [h0]; rfl
    · omega
  · rw [if_neg h0] at h ⊢
    by_cases h4 : (stripPad data).length % 4 = 1
    · rw [if_pos h4] at h
      exact Except.noConfusion h
    · rw [if_neg h4] at h ⊢
      by_cases hbad : (stripPad data).any (fun ch => (b64Index ch).isNone) = true
      · rw [if_pos hbad] at h
        exact Except.noConfusion h
      · rw [if_neg hbad] at h ⊢
        obtain rfl : out ++ decodeQuads (stripPad data) = r := Except.ok.inj h
        refine ⟨List.take_left _ _, ?_, 3 * (stripPad data).length / 4,
          decoded_len_some _ h4, ?_⟩
        · rw [List.drop_left, List.nil_append]
        · rw [List.length_append, decodeQuads_length _ h4]

theorem c10_witness :
    decode_to [65, 65, 65, 65] [9] = .ok [9, 0, 0, 0] ∧
    ([9, 0, 0, 0].take ([9] : List Nat).length = [9] ∧
      decode [65, 65, 65, 65] = .ok ([9, 0, 0, 0].drop ([9] : List Nat).length) ∧
      ∃ d, decoded_len (stripPad [65, 65, 65, 65]).length = some d ∧
        ([9, 0, 0, 0] : List Nat).length = ([9] : List Nat).length + d) :=
  ⟨by rfl, c10_decode_to_appends [65, 65, 65, 65] [9] [9, 0, 0, 0] (by rfl)⟩

end Baste64
